import Mathlib

/-!
# WhatsCookingSvm/svm.cpp : vocabulary construction, feature encoding and export

A shallow embedding of `parse_data`, `get_test_data` and of the parts of `main` that
index the sample vectors and write `submission.csv`.

Modelling conventions.

* A parsed JSON document is the list of its array elements; a document that the JSON
  reader rejects is `none`.  A record carries the values that the calls
  `root[i].get("cuisine", "null")`, `root[i].get("id", "null")` and
  `root[i].get("ingredients", "null")` return.
* `std::map<std::string, size_t>` is an association list kept in ascending key order,
  the order in which the C++ container is iterated.  Keys are compared as
  `std::string` compares them, lexicographically character by character.
* Counters are natural numbers.  The source moves them through `int`; the embedding
  describes runs in which no counter reaches `2^31`.
* Line 291 (and 375), `ingredients_map[mapcopy[i].first] = ingredients_map.size();`,
  reads the size of the map and inserts into the map in one assignment.  Before C++17
  the language leaves open which operand is evaluated first, and the source is written
  for such a compiler (it derives from `binary_function`).  Both orders are modelled;
  see `EvalOrder`.
* `std::sort` is a library routine.  It is a field of `StdSort`: some function that
  returns a rearrangement of its input in which no later element is `val_gt` an
  earlier one.  Nothing is assumed about the order of elements of equal count.
* `matrix<double>` column vectors that only ever hold `0` and `1` are lists of
  naturals.
-/

namespace WhatsCookingSvm

/-- An element of the array in `train.json`. -/
structure TrainRecord where
  cuisine : String
  ingredients : List String
deriving DecidableEq, Repr

/-- An element of the array in `test.json`. -/
structure TestRecord where
  id : String
  ingredients : List String
deriving DecidableEq, Repr

/-- The container `std::map<std::string, size_t>`, in iteration order. -/
abbrev StdMap := List (String × Nat)

/-- The type `sample_type`, a column vector. -/
abbrev sample_type := List Nat

/-- The result of multiclass training, applied to a sample as `df(sample)`. -/
abbrev decision_function := sample_type → String

/-- The comparison `std::less<std::string>` used by the maps. -/
def key_less (a b : String) : Bool := decide (a.toList < b.toList)

/-- The member `std::map::find`, returning the mapped value when the key is present. -/
def map_find : StdMap → String → Option Nat
  | [], _ => none
  | (k, v) :: rest, key => if key = k then some v else map_find rest key

/-- The statement `m[key] = value`: overwrite the entry of `key`, or insert it at its
place in key order. -/
def map_assign : StdMap → String → Nat → StdMap
  | [], key, value => [(key, value)]
  | (k, v) :: rest, key, value =>
    if key_less key k then (key, value) :: (k, v) :: rest
    else if key = k then (key, value) :: rest
    else (k, v) :: map_assign rest key value

/-- Lines 267-275 (and 351-359): the body of the inner counting loop. -/
def count_ingredient (frequency_map : StdMap) (ingredient_string : String) : StdMap :=
  match map_find frequency_map ingredient_string with
  | none => map_assign frequency_map ingredient_string 1
  | some x => map_assign frequency_map ingredient_string (x + 1)

/-- Lines 226-279 (and 342-363): the first loop over the records.  It accumulates
`frequency_map` and pushes one tag per record (`cuisine` onto `labels` in `parse_data`,
`id` onto `ids` in `get_test_data`).  The two functions of the source contain the same
loop; `tag` and `ings` select the record members. -/
def first_loop {ρ : Type} (tag : ρ → String) (ings : ρ → List String) (root : List ρ) :
    StdMap × List String :=
  root.foldl
    (fun st r => ((ings r).foldl count_ingredient st.1, st.2 ++ [tag r]))
    ([], [])

/-- The comparator `val_gt`: `x.second > y.second`. -/
def val_greater_than (x y : String × Nat) : Bool := decide (x.2 > y.2)

/-- The call `std::sort(first, last, val_gt)`: the outcome is a rearrangement of the
input, ordered so that no element is `val_gt` an element placed before it. -/
structure StdSort where
  sort : List (String × Nat) → List (String × Nat)
  perm : ∀ l, (sort l).Perm l
  sorted : ∀ l, (sort l).Pairwise (fun x y => val_greater_than y x = false)

/-- The order in which the two operands of the assignment of line 291 (and 375) are
evaluated. -/
inductive EvalOrder where
  /-- The call `ingredients_map.size()` runs before `operator[]` inserts the key: the
  order C++17 prescribes, and one of the two a compiler may choose before C++17. -/
  | size_first
  /-- The call `operator[]` inserts the key before `ingredients_map.size()` runs: the
  other order a compiler may choose before C++17. -/
  | subscript_first
deriving DecidableEq, Repr

/-- The expression `m[key]` on its own: a key that is absent is inserted with the value
`0`. -/
def map_subscript (m : StdMap) (key : String) : StdMap :=
  match map_find m key with
  | none => map_assign m key 0
  | some _ => m

/-- Line 291 (and 375): `ingredients_map[key] = ingredients_map.size()`.  With
`size_first` the stored value is the size before the key is inserted, with
`subscript_first` it is the size after the key was inserted. -/
def assign_size (order : EvalOrder) (ingredients_map : StdMap) (key : String) : StdMap :=
  match order with
  | EvalOrder.size_first => map_assign ingredients_map key ingredients_map.length
  | EvalOrder.subscript_first =>
    let inserted := map_subscript ingredients_map key
    map_assign inserted key inserted.length

/-- Lines 288-292 (and 372-376): the loop over `mapcopy` that fills `ingredients_map`. -/
def build_ingredients_map (order : EvalOrder) (mapcopy : List (String × Nat)) : StdMap :=
  mapcopy.foldl (fun ingredients_map p => assign_size order ingredients_map p.1) []

/-- Lines 283-286 (and 367-370): copy the map into the vector `mapcopy`, sort it by
`val_gt` and resize it to at most 2000 elements. -/
def resized_mapcopy (S : StdSort) (frequency_map : StdMap) : List (String × Nat) :=
  let mapcopy := S.sort frequency_map
  mapcopy.take (min mapcopy.length 2000)

/-- Lines 283-292 (and 367-376): the map `ingredients_map` numbering the elements that
remain in `mapcopy`. -/
def make_ingredients_map (S : StdSort) (order : EvalOrder) (frequency_map : StdMap) :
    StdMap :=
  build_ingredients_map order (resized_mapcopy S frequency_map)

/-- Lines 302-316 (and 384-398): a zero vector of `ingredients_map.size()` rows in which
`sample(index) = 1` is executed for every listed ingredient found in the map.  An
`index` that is not below the number of rows addresses no element of the vector; the
vector keeps its rows, and `encode_in_range` records that the subscript was outside. -/
def encode (ingredients_map : StdMap) (ingredients : List String) : sample_type :=
  ingredients.foldl
    (fun sample ingredient_string =>
      match map_find ingredients_map ingredient_string with
      | some index => sample.set index 1
      | none => sample)
    (List.replicate ingredients_map.length 0)

/-- Lines 307-316 (and 389-398): every `sample(index) = 1` executed for this ingredient
list addresses a row of the vector. -/
def encode_in_range (ingredients_map : StdMap) (ingredients : List String) : Bool :=
  ingredients.all
    (fun ingredient_string =>
      match map_find ingredients_map ingredient_string with
      | some index => decide (index < ingredients_map.length)
      | none => true)

/-- Lines 299-319 (and 381-401): the second loop over the records, pushing one sample
per record. -/
def second_loop {ρ : Type} (ingredients_map : StdMap) (ings : ρ → List String)
    (root : List ρ) : List sample_type :=
  root.foldl (fun samples r => samples ++ [encode ingredients_map (ings r)]) []

/-- The local `ingredients_map` of `parse_data` after line 292. -/
def parse_data_ingredients_map (S : StdSort) (order : EvalOrder)
    (root : List TrainRecord) : StdMap :=
  make_ingredients_map S order (first_loop TrainRecord.cuisine TrainRecord.ingredients root).1

/-- The function `parse_data`: the vectors `samples` and `labels` it leaves behind.
Both start empty in `main`; a parse failure returns before touching them. -/
def parse_data (S : StdSort) (order : EvalOrder) (train_json : Option (List TrainRecord)) :
    List sample_type × List String :=
  match train_json with
  | none => ([], [])
  | some root =>
    let labels := (first_loop TrainRecord.cuisine TrainRecord.ingredients root).2
    let ingredients_map := parse_data_ingredients_map S order root
    (second_loop ingredients_map TrainRecord.ingredients root, labels)

/-- The local `ingredients_map` of `get_test_data` after line 376.  It is computed from
the `frequency_map` that `get_test_data` fills from `test.json`. -/
def get_test_data_ingredients_map (S : StdSort) (order : EvalOrder)
    (root : List TestRecord) : StdMap :=
  make_ingredients_map S order (first_loop TestRecord.id TestRecord.ingredients root).1

/-- The function `get_test_data`: the vectors `samples` and `ids` it leaves behind. -/
def get_test_data (S : StdSort) (order : EvalOrder) (test_json : Option (List TestRecord)) :
    List sample_type × List String :=
  match test_json with
  | none => ([], [])
  | some root =>
    let ids := (first_loop TestRecord.id TestRecord.ingredients root).2
    let ingredients_map := get_test_data_ingredients_map S order root
    (second_loop ingredients_map TestRecord.ingredients root, ids)

/-- Lines 124-125 (and 151-152): `df(samples[0])`, `labels[0]`, `df(samples[90])`,
`labels[90]`.  The result is `none` when one of the four subscripts is not below the
size of its vector. -/
def fixed_lookups (df : decision_function) (samples : List sample_type)
    (labels : List String) : Option (List (String × String)) :=
  match samples[0]?, labels[0]?, samples[90]?, labels[90]? with
  | some s0, some l0, some s90, some l90 => some [(df s0, l0), (df s90, l90)]
  | _, _, _, _ => none

/-- Lines 163-171: the rows streamed into `submission.csv`.  The result is `none` when
`test_samples[i]` is not below the size of `test_samples`. -/
def write_submission (df3 : decision_function) (test_samples : List sample_type)
    (test_ids : List String) : Option (List String) :=
  (List.range test_ids.length).foldl
    (fun results i =>
      match results, test_ids[i]?, test_samples[i]? with
      | some rows, some id, some x => some (rows ++ [id ++ "," ++ df3 x ++ "\n"])
      | _, _, _ => none)
    (some ["id,cuisine\n"])

/-- Modelled from the spec: the multiclass training step `trainer.train(samples, labels)`,
whose code is not part of the source file.  Section 4.3: it fails with a configuration
error if `samples` is empty or if fewer than two distinct labels occur; otherwise it
returns the decision function that the binary trainers (`fit`) produce. -/
def train (fit : List sample_type → List String → decision_function)
    (samples : List sample_type) (labels : List String) : Except String decision_function :=
  if samples = [] ∨ labels.dedup.length < 2 then
    Except.error "ConfigurationError"
  else
    Except.ok (fit samples labels)

/-- How a run of `main` ends. -/
inductive MainOutcome where
  /-- The `catch` block ran and printed `what`. -/
  | exception_thrown (what : String)
  /-- A vector was subscripted at or beyond its size. -/
  | out_of_range
  /-- The `try` block ran to its end. -/
  | completed (predictions : List (String × String)) (submission : List String)
deriving DecidableEq, Repr

/-- The function `main`.  `trainer` stands for the call `trainer.train(samples, labels)`
and `reload` for writing `df.dat` and reading it back; both may raise.  Console output
other than the four predicted/true label pairs is left out. -/
def main (S : StdSort) (order : EvalOrder)
    (trainer : List sample_type → List String → Except String decision_function)
    (reload : decision_function → Except String decision_function)
    (train_json : Option (List TrainRecord)) (test_json : Option (List TestRecord)) :
    MainOutcome :=
  let parsed := parse_data S order train_json
  match trainer parsed.1 parsed.2 with
  | Except.error what => MainOutcome.exception_thrown what
  | Except.ok df =>
    match fixed_lookups df parsed.1 parsed.2 with
    | none => MainOutcome.out_of_range
    | some shown =>
      match reload df with
      | Except.error what => MainOutcome.exception_thrown what
      | Except.ok df3 =>
        match fixed_lookups df3 parsed.1 parsed.2 with
        | none => MainOutcome.out_of_range
        | some shown3 =>
          let test := get_test_data S order test_json
          match write_submission df3 test.1 test.2 with
          | none => MainOutcome.out_of_range
          | some rows => MainOutcome.completed (shown ++ shown3) rows

/-- An instance of `std::sort`: insertion sort by descending count. -/
def insertion_sort : StdSort where
  sort := List.insertionSort (fun x y => y.2 ≤ x.2)
  perm := List.perm_insertionSort _
  sorted := by
    intro l
    haveI : IsTotal (String × Nat) (fun x y => y.2 ≤ x.2) := ⟨fun a b => le_total b.2 a.2⟩
    haveI : IsTrans (String × Nat) (fun x y => y.2 ≤ x.2) :=
      ⟨fun _ _ _ h1 h2 => le_trans h2 h1⟩
    have h := List.sorted_insertionSort (fun x y : String × Nat => y.2 ≤ x.2) l
    refine List.Pairwise.imp ?_ h
    intro a b hab
    simp only [val_greater_than, decide_eq_false_iff_not, not_lt]
    exact hab

/-- The training corpus of the pasta scenario. -/
def pasta_corpus : List TrainRecord :=
  [⟨"italian", ["pasta", "tomato"]⟩, ⟨"mexican", ["tortilla", "beans"]⟩,
   ⟨"italian", ["pasta", "basil"]⟩]

/-- The test corpus of the unknown-ingredient scenario. -/
def unknown_item_corpus : List TestRecord := [⟨"t1", ["unknown_item"]⟩]

/-- Every ingredient string of a corpus, record after record (specification side). -/
def all_ingredients {ρ : Type} (ings : ρ → List String) (root : List ρ) : List String :=
  (root.map ings).flatten

/-- The number of occurrences of an ingredient across all records of a corpus, a repeat
inside one record counting each time (specification side). -/
def occurrences {ρ : Type} (ings : ρ → List String) (root : List ρ) (s : String) : Nat :=
  (all_ingredients ings root).count s

/-- The number that the first element of `mapcopy` receives (specification side): `0`
when the size is read first, `1` when the key is inserted first. -/
def EvalOrder.first_index : EvalOrder → Nat
  | EvalOrder.size_first => 0
  | EvalOrder.subscript_first => 1

/-- The keys of a map are in strictly ascending order. -/
def KeysAscending (m : StdMap) : Prop :=
  m.Pairwise (fun p q => key_less p.1 q.1 = true)

/-! ## Key order -/

theorem key_less_irrefl (a : String) : key_less a a = false := by
  simp [key_less]

theorem key_less_trans {a b c : String} (h1 : key_less a b = true)
    (h2 : key_less b c = true) : key_less a c = true := by
  simp only [key_less, decide_eq_true_eq] at *
  exact lt_trans h1 h2

theorem key_less_asymm {a b : String} (h : key_less a b = true) : key_less b a = false := by
  simp only [key_less, decide_eq_true_eq, decide_eq_false_iff_not] at *
  exact not_lt_of_lt h

theorem key_less_of_not {a b : String} (h : key_less a b = false) (hne : a ≠ b) :
    key_less b a = true := by
  simp only [key_less, decide_eq_true_eq, decide_eq_false_iff_not] at *
  rcases lt_trichotomy a.toList b.toList with h1 | h1 | h1
  · exact absurd h1 h
  · exact absurd (String.ext h1) hne
  · exact h1

theorem key_less_ne {a b : String} (h : key_less a b = true) : a ≠ b := by
  intro hab
  subst hab
  rw [key_less_irrefl] at h
  exact Bool.false_ne_true h

/-! ## The map operations -/

theorem map_find_assign (m : StdMap) (k : String) (v : Nat) (k2 : String) :
    map_find (map_assign m k v) k2 = if k2 = k then some v else map_find m k2 := by
  induction m with
  | nil => simp [map_assign, map_find]
  | cons p rest ih =>
    obtain ⟨a, b⟩ := p
    by_cases hk : k2 = k
    · subst hk
      simp only [map_assign, if_true]
      by_cases h1 : key_less k2 a = true
      · simp [h1, map_find]
      · by_cases h2 : k2 = a
        · subst h2
          simp [key_less_irrefl, map_find]
        · simp [h1, h2, map_find, ih]
    · simp only [map_assign, if_neg hk] at ih ⊢
      by_cases h1 : key_less k a = true
      · simp [h1, map_find, hk]
      · by_cases h2 : k = a
        · subst h2
          simp [h1, map_find, hk]
        · simp [h1, h2, map_find, ih]

theorem map_find_eq_none_iff (m : StdMap) (k : String) :
    map_find m k = none ↔ k ∉ m.map Prod.fst := by
  induction m with
  | nil => simp [map_find]
  | cons p rest ih =>
    obtain ⟨a, b⟩ := p
    by_cases h : k = a
    · simp [map_find, h]
    · simp [map_find, h, ih]

theorem mem_of_map_find {m : StdMap} {k : String} {v : Nat} (h : map_find m k = some v) :
    (k, v) ∈ m := by
  induction m with
  | nil => simp [map_find] at h
  | cons p rest ih =>
    obtain ⟨a, b⟩ := p
    by_cases hk : k = a
    · simp [map_find, hk] at h
      simp [hk, h]
    · simp [map_find, hk] at h
      exact List.mem_cons_of_mem _ (ih h)

theorem map_find_of_mem {m : StdMap} (hnd : (m.map Prod.fst).Nodup) {k : String} {v : Nat}
    (h : (k, v) ∈ m) : map_find m k = some v := by
  induction m with
  | nil => simp at h
  | cons p rest ih =>
    obtain ⟨a, b⟩ := p
    simp only [List.map_cons, List.nodup_cons] at hnd
    rcases List.mem_cons.1 h with h1 | h1
    · cases h1
      simp [map_find]
    · have hne : k ≠ a := by
        intro hka
        subst hka
        exact hnd.1 (List.mem_map_of_mem Prod.fst h1)
      simp [map_find, hne, ih hnd.2 h1]

theorem map_assign_length_of_none {m : StdMap} {k : String} (v : Nat)
    (h : map_find m k = none) : (map_assign m k v).length = m.length + 1 := by
  induction m with
  | nil => simp [map_assign]
  | cons p rest ih =>
    obtain ⟨a, b⟩ := p
    have hne : k ≠ a := by
      intro hka
      simp [map_find, hka] at h
    have hrest : map_find rest k = none := by simpa [map_find, hne] using h
    simp only [map_assign]
    split_ifs with h1
    · simp
    · simp [ih hrest]

theorem mem_map_assign {m : StdMap} {k : String} {v : Nat} {p : String × Nat}
    (h : p ∈ map_assign m k v) : p = (k, v) ∨ p ∈ m := by
  induction m with
  | nil => simpa [map_assign] using h
  | cons q rest ih =>
    obtain ⟨a, b⟩ := q
    simp only [map_assign] at h
    split_ifs at h with h1 h2
    · rcases List.mem_cons.1 h with h3 | h3
      · exact Or.inl h3
      · exact Or.inr h3
    · rcases List.mem_cons.1 h with h3 | h3
      · exact Or.inl h3
      · exact Or.inr (List.mem_cons_of_mem _ h3)
    · rcases List.mem_cons.1 h with h3 | h3
      · exact Or.inr (by rw [h3]; exact List.mem_cons_self _ _)
      · rcases ih h3 with h4 | h4
        · exact Or.inl h4
        · exact Or.inr (List.mem_cons_of_mem _ h4)

theorem map_assign_ascending {m : StdMap} (hm : KeysAscending m) (k : String) (v : Nat) :
    KeysAscending (map_assign m k v) := by
  induction m with
  | nil => simp [map_assign, KeysAscending]
  | cons q rest ih =>
    obtain ⟨a, b⟩ := q
    have hm2 := List.pairwise_cons.1 hm
    simp only [map_assign]
    split_ifs with h1 h2
    · refine List.pairwise_cons.2 ⟨?_, hm⟩
      intro p hp
      rcases List.mem_cons.1 hp with h3 | h3
      · rw [h3]; exact h1
      · exact key_less_trans h1 (hm2.1 p h3)
    · subst h2
      exact List.pairwise_cons.2 ⟨hm2.1, hm2.2⟩
    · refine List.pairwise_cons.2 ⟨?_, ih hm2.2⟩
      intro p hp
      rcases mem_map_assign hp with h3 | h3
      · rw [h3]
        exact key_less_of_not (by simpa using h1) h2
      · exact hm2.1 p h3

theorem KeysAscending.nodup_keys {m : StdMap} (hm : KeysAscending m) :
    (m.map Prod.fst).Nodup := by
  unfold KeysAscending at hm
  rw [List.Nodup, List.pairwise_map]
  exact hm.imp (fun h => key_less_ne h)

theorem KeysAscending.nodup {m : StdMap} (hm : KeysAscending m) : m.Nodup :=
  List.Nodup.of_map _ hm.nodup_keys

/-- Two maps in key order that answer every `find` alike are the same list. -/
theorem map_ext {m1 m2 : StdMap} (h1 : KeysAscending m1) (h2 : KeysAscending m2)
    (h : ∀ k, map_find m1 k = map_find m2 k) : m1 = m2 := by
  haveI : IsAntisymm (String × Nat) (fun p q => key_less p.1 q.1 = true) :=
    ⟨fun p q hpq hqp => by rw [key_less_asymm hpq] at hqp; exact absurd hqp (by simp)⟩
  refine List.eq_of_perm_of_sorted ?_ h1 h2
  rw [List.perm_ext_iff_of_nodup h1.nodup h2.nodup]
  intro p
  obtain ⟨k, v⟩ := p
  constructor
  · intro hp
    have := map_find_of_mem h1.nodup_keys hp
    rw [h] at this
    exact mem_of_map_find this
  · intro hp
    have := map_find_of_mem h2.nodup_keys hp
    rw [← h] at this
    exact mem_of_map_find this

/-! ## The counting loop -/

theorem map_find_count_ingredient (m : StdMap) (s k : String) :
    map_find (count_ingredient m s) k =
      if k = s then some ((map_find m s).getD 0 + 1) else map_find m k := by
  unfold count_ingredient
  cases h : map_find m s with
  | none => simp [map_find_assign]
  | some x => simp [map_find_assign]

theorem count_ingredient_ascending {m : StdMap} (hm : KeysAscending m) (s : String) :
    KeysAscending (count_ingredient m s) := by
  unfold count_ingredient
  cases map_find m s with
  | none => exact map_assign_ascending hm _ _
  | some x => exact map_assign_ascending hm _ _

theorem foldl_count_ascending (l : List String) {m : StdMap} (hm : KeysAscending m) :
    KeysAscending (l.foldl count_ingredient m) := by
  induction l generalizing m with
  | nil => exact hm
  | cons s rest ih => exact ih (count_ingredient_ascending hm s)

theorem map_find_foldl_count (l : List String) (m : StdMap) (k : String) :
    map_find (l.foldl count_ingredient m) k =
      if l.count k = 0 then map_find m k else some ((map_find m k).getD 0 + l.count k) := by
  induction l generalizing m with
  | nil => simp
  | cons s rest ih =>
    rw [List.foldl_cons, ih, map_find_count_ingredient, List.count_cons]
    by_cases hks : k = s
    · subst hks
      by_cases hc : rest.count k = 0
      · simp [hc]
      · simp [hc]
        omega
    · have hsk : ¬ s = k := fun h => hks h.symm
      simp [hks, hsk]

theorem first_loop_fold {ρ : Type} (tag : ρ → String) (ings : ρ → List String)
    (root : List ρ) (st : StdMap × List String) :
    root.foldl (fun st r => ((ings r).foldl count_ingredient st.1, st.2 ++ [tag r])) st =
      ((all_ingredients ings root).foldl count_ingredient st.1, st.2 ++ root.map tag) := by
  induction root generalizing st with
  | nil => simp [all_ingredients]
  | cons r rest ih =>
    rw [List.foldl_cons, ih]
    simp [all_ingredients, List.foldl_append]

/-- The first loop leaves the counts of the flattened corpus in `frequency_map`. -/
theorem first_loop_fst {ρ : Type} (tag : ρ → String) (ings : ρ → List String)
    (root : List ρ) :
    (first_loop tag ings root).1 = (all_ingredients ings root).foldl count_ingredient [] := by
  unfold first_loop
  rw [first_loop_fold]

/-- The first loop pushes the tag of every record, in record order. -/
theorem first_loop_snd {ρ : Type} (tag : ρ → String) (ings : ρ → List String)
    (root : List ρ) : (first_loop tag ings root).2 = root.map tag := by
  unfold first_loop
  rw [first_loop_fold]
  simp

theorem first_loop_ascending {ρ : Type} (tag : ρ → String) (ings : ρ → List String)
    (root : List ρ) : KeysAscending (first_loop tag ings root).1 := by
  rw [first_loop_fst]
  exact foldl_count_ascending _ (by simp [KeysAscending])

/-- The entry of an ingredient in `frequency_map` is its number of occurrences; an
ingredient that never occurs has no entry. -/
theorem map_find_first_loop {ρ : Type} (tag : ρ → String) (ings : ρ → List String)
    (root : List ρ) (k : String) :
    map_find (first_loop tag ings root).1 k =
      if occurrences ings root k = 0 then none else some (occurrences ings root k) := by
  rw [first_loop_fst, map_find_foldl_count]
  simp [occurrences, map_find]

theorem mem_first_loop {ρ : Type} (tag : ρ → String) (ings : ρ → List String)
    (root : List ρ) (p : String × Nat) :
    p ∈ (first_loop tag ings root).1 ↔ p.2 = occurrences ings root p.1 ∧ 0 < p.2 := by
  obtain ⟨k, v⟩ := p
  constructor
  · intro h
    have := map_find_of_mem (first_loop_ascending tag ings root).nodup_keys h
    rw [map_find_first_loop] at this
    split_ifs at this with h0
    simp only [Option.some.injEq] at this
    simp only
    omega
  · rintro ⟨h1, h2⟩
    apply mem_of_map_find
    rw [map_find_first_loop]
    simp only at h1 h2
    rw [if_neg (by omega), h1]

/-- The number of entries of `frequency_map` is the number of distinct ingredient
strings of the corpus. -/
theorem first_loop_length {ρ : Type} (tag : ρ → String) (ings : ρ → List String)
    (root : List ρ) :
    (first_loop tag ings root).1.length = (all_ingredients ings root).dedup.length := by
  have hnd := (first_loop_ascending tag ings root).nodup_keys
  rw [← List.length_map (first_loop tag ings root).1 Prod.fst]
  apply List.Perm.length_eq
  rw [List.perm_ext_iff_of_nodup hnd (List.nodup_dedup _)]
  intro k
  rw [List.mem_dedup, ← not_iff_not, ← map_find_eq_none_iff, map_find_first_loop,
    ← List.count_eq_zero]
  simp [occurrences]

/-! ## Numbering the kept ingredients -/

theorem map_assign_assign (m : StdMap) (k : String) (v0 v : Nat) :
    map_assign (map_assign m k v0) k v = map_assign m k v := by
  induction m with
  | nil => simp [map_assign, key_less_irrefl]
  | cons p rest ih =>
    obtain ⟨a, b⟩ := p
    by_cases h1 : key_less k a = true
    · simp [map_assign, h1, key_less_irrefl]
    · by_cases h2 : k = a
      · subst h2
        simp [map_assign, key_less_irrefl]
      · simp [map_assign, h1, h2, ih]

/-- For a key that is not yet in the map, line 291 stores the size before the insertion
when the size is read first, and one more when the key is inserted first. -/
theorem assign_size_of_none (order : EvalOrder) {m : StdMap} {k : String}
    (h : map_find m k = none) :
    assign_size order m k = map_assign m k (m.length + order.first_index) := by
  cases order with
  | size_first => simp [assign_size, EvalOrder.first_index]
  | subscript_first =>
    simp only [assign_size, map_subscript, h, EvalOrder.first_index]
    rw [map_assign_assign, map_assign_length_of_none _ h]

theorem build_ingredients_map_append (order : EvalOrder) (l : List (String × Nat))
    (p : String × Nat) :
    build_ingredients_map order (l ++ [p]) =
      assign_size order (build_ingredients_map order l) p.1 := by
  simp [build_ingredients_map, List.foldl_append]

theorem getElem?_append_singleton {α : Type} (l : List α) (a k : α) (j : Nat) :
    (l ++ [a])[j]? = some k ↔ l[j]? = some k ∨ (j = l.length ∧ a = k) := by
  rw [List.getElem?_append]
  by_cases hj : j < l.length
  · rw [if_pos hj]
    constructor
    · intro h; exact Or.inl h
    · rintro (h | ⟨h, -⟩)
      · exact h
      · omega
  · rw [if_neg hj, List.getElem?_eq_none (Nat.le_of_not_lt hj)]
    by_cases h0 : j = l.length
    · subst h0
      simp
    · have h1 : 1 ≤ j - l.length := by omega
      rw [List.getElem?_eq_none (by simpa using h1)]
      simp [h0]

/-- When the keys of `mapcopy` are pairwise different, the map has one entry per element
and the key at position `j` is mapped to `j` plus the number of the first element. -/
theorem build_ingredients_map_spec (order : EvalOrder) (l : List (String × Nat))
    (hnd : (l.map Prod.fst).Nodup) :
    (build_ingredients_map order l).length = l.length ∧
      ∀ k i, map_find (build_ingredients_map order l) k = some i ↔
        ∃ j, i = j + order.first_index ∧ (l.map Prod.fst)[j]? = some k := by
  induction l using List.reverseRecOn with
  | nil => simp [build_ingredients_map, map_find]
  | append_singleton l p ih =>
    rw [List.map_append, List.nodup_append] at hnd
    obtain ⟨hl, -, hdis⟩ := hnd
    obtain ⟨ihlen, ihfind⟩ := ih hl
    have hnotin : p.1 ∉ l.map Prod.fst := fun hm => hdis hm (by simp)
    have hfresh : map_find (build_ingredients_map order l) p.1 = none := by
      cases hq : map_find (build_ingredients_map order l) p.1 with
      | none => rfl
      | some i =>
        obtain ⟨j, -, hj⟩ := (ihfind p.1 i).1 hq
        exact absurd (List.getElem?_mem hj) hnotin
    rw [build_ingredients_map_append, assign_size_of_none order hfresh]
    refine ⟨by rw [map_assign_length_of_none _ hfresh, ihlen]; simp, ?_⟩
    intro k i
    rw [map_find_assign, ihlen]
    simp only [List.map_append, List.map_cons, List.map_nil, getElem?_append_singleton,
      List.length_map]
    by_cases hk : k = p.1
    · subst hk
      simp only [if_true, Option.some.injEq]
      constructor
      · intro h
        exact ⟨l.length, h.symm, Or.inr (by simp)⟩
      · rintro ⟨j, hij, hj | ⟨hj, -⟩⟩
        · exact absurd (List.getElem?_mem hj) hnotin
        · omega
    · rw [if_neg hk, ihfind]
      constructor
      · rintro ⟨j, hij, hj⟩
        exact ⟨j, hij, Or.inl hj⟩
      · rintro ⟨j, hij, hj | ⟨-, hpk⟩⟩
        · exact ⟨j, hij, hj⟩
        · exact absurd hpk.symm hk

theorem resized_mapcopy_length (S : StdSort) (m : StdMap) :
    (resized_mapcopy S m).length = min m.length 2000 := by
  unfold resized_mapcopy
  simp only
  rw [List.length_take, (S.perm m).length_eq]
  omega

theorem resized_mapcopy_mem (S : StdSort) (m : StdMap) {p : String × Nat}
    (h : p ∈ resized_mapcopy S m) : p ∈ m :=
  (S.perm m).subset (List.mem_of_mem_take h)

theorem resized_mapcopy_nodup_keys (S : StdSort) {m : StdMap} (hm : KeysAscending m) :
    ((resized_mapcopy S m).map Prod.fst).Nodup := by
  have h1 : ((S.sort m).map Prod.fst).Nodup :=
    ((S.perm m).map Prod.fst).nodup_iff.2 hm.nodup_keys
  exact List.Nodup.sublist ((List.take_sublist _ _).map Prod.fst) h1

theorem resized_mapcopy_descending (S : StdSort) (m : StdMap) :
    (resized_mapcopy S m).Pairwise (fun x y => y.2 ≤ x.2) := by
  have h := (S.sorted m).sublist (List.take_sublist (min (S.sort m).length 2000) (S.sort m))
  refine h.imp ?_
  intro a b hab
  simpa [val_greater_than] using hab

/-- Whatever the `resize` cut off counts no more than anything that was kept. -/
theorem resized_mapcopy_cut (S : StdSort) {m : StdMap}
    {p q : String × Nat} (hp : p ∈ resized_mapcopy S m) (hq : q ∈ m)
    (hq2 : q ∉ resized_mapcopy S m) : q.2 ≤ p.2 := by
  have hsplit := List.take_append_drop (min (S.sort m).length 2000) (S.sort m)
  have hq3 : q ∈ S.sort m := (S.perm m).symm.subset hq
  rw [← hsplit, List.mem_append] at hq3
  have hsorted := S.sorted m
  rw [← hsplit, List.pairwise_append] at hsorted
  rcases hq3 with h | h
  · exact absurd h hq2
  · simpa [val_greater_than] using hsorted.2.2 p hp q h

/-! ## The vocabulary of a corpus -/

theorem vocabulary_length {ρ : Type} (S : StdSort) (order : EvalOrder) (tag : ρ → String)
    (ings : ρ → List String) (root : List ρ) :
    (make_ingredients_map S order (first_loop tag ings root).1).length =
      min (all_ingredients ings root).dedup.length 2000 := by
  unfold make_ingredients_map
  rw [(build_ingredients_map_spec order _
      (resized_mapcopy_nodup_keys S (first_loop_ascending tag ings root))).1,
    resized_mapcopy_length, first_loop_length]

theorem vocabulary_find_iff {ρ : Type} (S : StdSort) (order : EvalOrder) (tag : ρ → String)
    (ings : ρ → List String) (root : List ρ) (k : String) (i : Nat) :
    map_find (make_ingredients_map S order (first_loop tag ings root).1) k = some i ↔
      ∃ j, i = j + order.first_index ∧
        ((resized_mapcopy S (first_loop tag ings root).1).map Prod.fst)[j]? = some k := by
  unfold make_ingredients_map
  exact (build_ingredients_map_spec order _
    (resized_mapcopy_nodup_keys S (first_loop_ascending tag ings root))).2 k i

theorem vocabulary_entry {ρ : Type} (S : StdSort) (order : EvalOrder) (tag : ρ → String)
    (ings : ρ → List String) (root : List ρ) {k : String} {i : Nat}
    (h : map_find (make_ingredients_map S order (first_loop tag ings root).1) k = some i) :
    ∃ j, i = j + order.first_index ∧
      (resized_mapcopy S (first_loop tag ings root).1)[j]? =
        some (k, occurrences ings root k) ∧
      0 < occurrences ings root k := by
  rw [vocabulary_find_iff] at h
  obtain ⟨j, hij, hj⟩ := h
  rw [List.getElem?_map] at hj
  refine ⟨j, hij, ?_⟩
  cases hp : (resized_mapcopy S (first_loop tag ings root).1)[j]? with
  | none => rw [hp] at hj; exact absurd hj (by simp)
  | some p =>
    rw [hp] at hj
    simp only [Option.map_some', Option.some.injEq] at hj
    have hmem := resized_mapcopy_mem S _ (List.getElem?_mem hp)
    rw [mem_first_loop] at hmem
    obtain ⟨a, b⟩ := p
    simp only at hj hmem
    subst hj
    obtain ⟨h1, h2⟩ := hmem
    subst h1
    exact ⟨rfl, h2⟩

theorem vocabulary_injective {ρ : Type} (S : StdSort) (order : EvalOrder) (tag : ρ → String)
    (ings : ρ → List String) (root : List ρ) {a b : String} {i : Nat}
    (ha : map_find (make_ingredients_map S order (first_loop tag ings root).1) a = some i)
    (hb : map_find (make_ingredients_map S order (first_loop tag ings root).1) b = some i) :
    a = b := by
  rw [vocabulary_find_iff] at ha hb
  obtain ⟨j1, h1, hj1⟩ := ha
  obtain ⟨j2, h2, hj2⟩ := hb
  have : j1 = j2 := by omega
  subst this
  rw [hj1] at hj2
  exact Option.some.inj hj2

theorem vocabulary_index_range {ρ : Type} (S : StdSort) (order : EvalOrder)
    (tag : ρ → String) (ings : ρ → List String) (root : List ρ) (i : Nat) :
    (∃ k, map_find (make_ingredients_map S order (first_loop tag ings root).1) k = some i) ↔
      order.first_index ≤ i ∧
        i < (make_ingredients_map S order (first_loop tag ings root).1).length +
          order.first_index := by
  have hlen : (make_ingredients_map S order (first_loop tag ings root).1).length =
      ((resized_mapcopy S (first_loop tag ings root).1).map Prod.fst).length := by
    unfold make_ingredients_map
    rw [(build_ingredients_map_spec order _
        (resized_mapcopy_nodup_keys S (first_loop_ascending tag ings root))).1,
      List.length_map]
  rw [hlen]
  constructor
  · rintro ⟨k, hk⟩
    rw [vocabulary_find_iff] at hk
    obtain ⟨j, hij, hj⟩ := hk
    have := (List.getElem?_eq_some.1 hj).1
    omega
  · rintro ⟨h1, h2⟩
    have hj : i - order.first_index <
        ((resized_mapcopy S (first_loop tag ings root).1).map Prod.fst).length := by omega
    exact ⟨_, (vocabulary_find_iff S order tag ings root _ i).2
      ⟨i - order.first_index, by omega, List.getElem?_eq_getElem hj⟩⟩

theorem vocabulary_order {ρ : Type} (S : StdSort) (order : EvalOrder) (tag : ρ → String)
    (ings : ρ → List String) (root : List ρ) {a b : String} {i j : Nat}
    (ha : map_find (make_ingredients_map S order (first_loop tag ings root).1) a = some i)
    (hb : map_find (make_ingredients_map S order (first_loop tag ings root).1) b = some j)
    (hij : i < j) : occurrences ings root b ≤ occurrences ings root a := by
  obtain ⟨i2, hi, h1, -⟩ := vocabulary_entry S order tag ings root ha
  obtain ⟨j2, hj, h2, -⟩ := vocabulary_entry S order tag ings root hb
  obtain ⟨hi3, hi4⟩ := List.getElem?_eq_some.1 h1
  obtain ⟨hj3, hj4⟩ := List.getElem?_eq_some.1 h2
  have := List.pairwise_iff_getElem.1
    (resized_mapcopy_descending S (first_loop tag ings root).1) i2 j2 hi3 hj3 (by omega)
  rw [hi4, hj4] at this
  exact this

theorem vocabulary_cut {ρ : Type} (S : StdSort) (order : EvalOrder) (tag : ρ → String)
    (ings : ρ → List String) (root : List ρ) {a b : String} {i : Nat}
    (ha : map_find (make_ingredients_map S order (first_loop tag ings root).1) a = some i)
    (hb : map_find (make_ingredients_map S order (first_loop tag ings root).1) b = none)
    (hocc : 0 < occurrences ings root b) :
    occurrences ings root b ≤ occurrences ings root a := by
  obtain ⟨i2, -, hent, -⟩ := vocabulary_entry S order tag ings root ha
  have h1 := List.getElem?_mem hent
  have h2 : (b, occurrences ings root b) ∈ (first_loop tag ings root).1 :=
    (mem_first_loop tag ings root _).2 ⟨rfl, hocc⟩
  have h3 : (b, occurrences ings root b) ∉ resized_mapcopy S (first_loop tag ings root).1 := by
    intro hmem
    obtain ⟨j, hj⟩ := List.mem_iff_getElem?.1 hmem
    have : map_find (make_ingredients_map S order (first_loop tag ings root).1) b =
        some (j + order.first_index) := by
      rw [vocabulary_find_iff]
      exact ⟨j, rfl, by rw [List.getElem?_map, hj]; rfl⟩
    rw [hb] at this
    exact absurd this (by simp)
  exact resized_mapcopy_cut S h1 h2 h3

/-! ## Encoding -/

theorem encode_fold_length (m : StdMap) (l : List String) (acc : sample_type) :
    (l.foldl (fun sample ingredient_string =>
      match map_find m ingredient_string with
      | some index => sample.set index 1
      | none => sample) acc).length = acc.length := by
  induction l generalizing acc with
  | nil => rfl
  | cons s rest ih =>
    rw [List.foldl_cons, ih]
    cases map_find m s <;> simp

theorem encode_fold_getElem? (m : StdMap) (l : List String) (acc : sample_type) (i : Nat) :
    (l.foldl (fun sample ingredient_string =>
      match map_find m ingredient_string with
      | some index => sample.set index 1
      | none => sample) acc)[i]? =
      if ∃ s ∈ l, map_find m s = some i then (if i < acc.length then some 1 else none)
      else acc[i]? := by
  induction l generalizing acc with
  | nil => simp
  | cons s rest ih =>
    rw [List.foldl_cons, ih]
    cases hs : map_find m s with
    | none =>
      simp only [List.mem_cons, exists_eq_or_imp, hs]
      simp
    | some idx =>
      simp only [List.mem_cons, exists_eq_or_imp, hs, List.length_set, Option.some.injEq]
      by_cases h1 : ∃ s ∈ rest, map_find m s = some i
      · simp [h1]
      · by_cases h2 : idx = i
        · subst h2
          simp [h1, List.getElem?_set]
        · simp [h1, h2, List.getElem?_set]

theorem encode_length (m : StdMap) (l : List String) : (encode m l).length = m.length := by
  unfold encode
  rw [encode_fold_length]
  simp

/-- Entry `i` of an encoded vector is `1` when some listed ingredient is mapped to `i`
and `0` otherwise. -/
theorem encode_getElem? (m : StdMap) (l : List String) (i : Nat) :
    (encode m l)[i]? =
      if i < m.length then some (if ∃ s ∈ l, map_find m s = some i then 1 else 0)
      else none := by
  unfold encode
  rw [encode_fold_getElem?, List.length_replicate, List.getElem?_replicate]
  by_cases h1 : ∃ s ∈ l, map_find m s = some i <;> by_cases h2 : i < m.length <;>
    simp [h1, h2]

theorem second_loop_eq {ρ : Type} (m : StdMap) (ings : ρ → List String) (root : List ρ) :
    second_loop m ings root = root.map (fun r => encode m (ings r)) := by
  unfold second_loop
  have : ∀ acc : List sample_type,
      root.foldl (fun samples r => samples ++ [encode m (ings r)]) acc =
        acc ++ root.map (fun r => encode m (ings r)) := by
    induction root with
    | nil => simp
    | cons r rest ih =>
      intro acc
      rw [List.foldl_cons, ih]
      simp
  simpa using this []

theorem parse_data_some (S : StdSort) (order : EvalOrder) (root : List TrainRecord) :
    parse_data S order (some root) =
      (root.map (fun r => encode (parse_data_ingredients_map S order root) r.ingredients),
        root.map TrainRecord.cuisine) := by
  simp only [parse_data, second_loop_eq, first_loop_snd]

theorem get_test_data_some (S : StdSort) (order : EvalOrder) (root : List TestRecord) :
    get_test_data S order (some root) =
      (root.map (fun r => encode (get_test_data_ingredients_map S order root) r.ingredients),
        root.map TestRecord.id) := by
  simp only [get_test_data, second_loop_eq, first_loop_snd]

/-! ## Auxiliary facts for the claims -/

/-- When the corpus has at most 2000 distinct ingredients, each of them is numbered. -/
theorem vocabulary_complete {ρ : Type} (S : StdSort) (order : EvalOrder) (tag : ρ → String)
    (ings : ρ → List String) (root : List ρ)
    (hD : (all_ingredients ings root).dedup.length ≤ 2000) {k : String}
    (hk : 0 < occurrences ings root k) :
    ∃ i, map_find (make_ingredients_map S order (first_loop tag ings root).1) k = some i := by
  have hlen : (S.sort (first_loop tag ings root).1).length ≤ 2000 := by
    rw [(S.perm _).length_eq, first_loop_length]
    exact hD
  have hall : resized_mapcopy S (first_loop tag ings root).1 =
      S.sort (first_loop tag ings root).1 := by
    unfold resized_mapcopy
    simp only
    rw [min_eq_left hlen, List.take_length]
  have hmem : (k, occurrences ings root k) ∈ resized_mapcopy S (first_loop tag ings root).1 := by
    rw [hall]
    exact (S.perm _).symm.subset ((mem_first_loop tag ings root _).2 ⟨rfl, hk⟩)
  obtain ⟨j, hj⟩ := List.mem_iff_getElem?.1 hmem
  refine ⟨j + order.first_index, ?_⟩
  rw [vocabulary_find_iff]
  exact ⟨j, rfl, by rw [List.getElem?_map, hj]; rfl⟩

/-- An ingredient that occurs in the corpus is listed by one of its records. -/
theorem exists_record_of_occurrences {ρ : Type} (ings : ρ → List String) (root : List ρ)
    {k : String} (hk : 0 < occurrences ings root k) : ∃ r ∈ root, k ∈ ings r := by
  have hmem : k ∈ all_ingredients ings root := List.count_pos_iff.1 hk
  unfold all_ingredients at hmem
  obtain ⟨l, hl, hkl⟩ := List.mem_flatten.1 hmem
  obtain ⟨r, hr, rfl⟩ := List.mem_map.1 hl
  exact ⟨r, hr, hkl⟩

theorem encode_in_range_eq_false {m : StdMap} {l : List String} {s : String} {i : Nat}
    (hs : s ∈ l) (hf : map_find m s = some i) (hi : m.length ≤ i) :
    encode_in_range m l = false := by
  unfold encode_in_range
  rw [Bool.eq_false_iff]
  intro hall
  rw [List.all_eq_true] at hall
  have := hall s hs
  simp only [hf, decide_eq_true_eq] at this
  omega

theorem sort_singleton (S : StdSort) (p : String × Nat) : S.sort [p] = [p] :=
  List.perm_singleton.1 (S.perm [p])

theorem pasta_corpus_distinct :
    (all_ingredients TrainRecord.ingredients pasta_corpus).dedup.length = 5 := by decide

theorem pasta_corpus_vocabulary_length (S : StdSort) (order : EvalOrder) :
    (parse_data_ingredients_map S order pasta_corpus).length = 5 := by
  unfold parse_data_ingredients_map
  rw [vocabulary_length, pasta_corpus_distinct]
  rfl

/-- The pasta scenario evaluated with insertion sort as `std::sort`, the size being read
before the key is inserted. -/
theorem parse_data_pasta_corpus :
    parse_data_ingredients_map insertion_sort EvalOrder.size_first pasta_corpus =
        [("basil", 1), ("beans", 2), ("pasta", 0), ("tomato", 3), ("tortilla", 4)] ∧
      parse_data insertion_sort EvalOrder.size_first (some pasta_corpus) =
        ([[1, 0, 0, 1, 0], [0, 0, 1, 0, 1], [1, 1, 0, 0, 0]],
          ["italian", "mexican", "italian"]) := by
  constructor <;> decide

theorem pasta_corpus_frequent {a : String}
    (h : 2 ≤ occurrences TrainRecord.ingredients pasta_corpus a) : a = "pasta" := by
  by_contra hne
  have hle : occurrences TrainRecord.ingredients pasta_corpus a ≤ 1 := by
    by_cases h1 : a = "tomato"
    · subst h1; decide
    by_cases h2 : a = "tortilla"
    · subst h2; decide
    by_cases h3 : a = "beans"
    · subst h3; decide
    by_cases h4 : a = "basil"
    · subst h4; decide
    have h0 : occurrences TrainRecord.ingredients pasta_corpus a = 0 := by
      unfold occurrences
      rw [List.count_eq_zero]
      simp [all_ingredients, pasta_corpus, hne, h1, h2, h3, h4]
    omega
  omega

theorem fixed_lookups_isSome (df : decision_function) (samples : List sample_type)
    (labels : List String) :
    (fixed_lookups df samples labels).isSome = true ↔
      90 < samples.length ∧ 90 < labels.length := by
  unfold fixed_lookups
  by_cases h1 : 90 < samples.length
  · by_cases h2 : 90 < labels.length
    · have a1 : 0 < samples.length := by omega
      have a2 : 0 < labels.length := by omega
      simp [List.getElem?_eq_getElem h1, List.getElem?_eq_getElem h2,
        List.getElem?_eq_getElem a1, List.getElem?_eq_getElem a2, h1, h2]
    · have : labels[90]? = none := List.getElem?_eq_none (by omega)
      rw [this]
      simp only [h2, and_false, iff_false]
      split <;> simp_all
  · have : samples[90]? = none := List.getElem?_eq_none (by omega)
    rw [this]
    simp only [h1, false_and, iff_false]
    split <;> simp_all

theorem dedup_length_of_constant (labels : List String) (c : String)
    (h : ∀ x ∈ labels, x = c) : labels.dedup.length < 2 := by
  have hsub : labels.dedup ⊆ [c] := by
    intro x hx
    rw [List.mem_dedup] at hx
    simp [h x hx]
  have := (List.subperm_of_subset (List.nodup_dedup labels) hsub).length_le
  simp only [List.length_singleton] at this
  omega

/-- With the size read first, no two ingredients share an index, the indices in use are
exactly the numbers below the vocabulary size, a smaller index means at least as many
occurrences, and `pasta` has index 0 in the pasta corpus. -/
theorem size_first_vocabulary_indices (S : StdSort) (root : List TrainRecord) :
    (∀ a b i, map_find (parse_data_ingredients_map S EvalOrder.size_first root) a = some i →
      map_find (parse_data_ingredients_map S EvalOrder.size_first root) b = some i → a = b) ∧
    (∀ i, (∃ k, map_find (parse_data_ingredients_map S EvalOrder.size_first root) k = some i) ↔
      i < (parse_data_ingredients_map S EvalOrder.size_first root).length) ∧
    (∀ a b i j, map_find (parse_data_ingredients_map S EvalOrder.size_first root) a = some i →
      map_find (parse_data_ingredients_map S EvalOrder.size_first root) b = some j → i < j →
      occurrences TrainRecord.ingredients root b ≤ occurrences TrainRecord.ingredients root a) ∧
    map_find (parse_data_ingredients_map S EvalOrder.size_first pasta_corpus) "pasta" =
      some 0 := by
  refine ⟨?_, ?_, ?_, ?_⟩
  · intro a b i ha hb
    exact vocabulary_injective S _ TrainRecord.cuisine TrainRecord.ingredients root ha hb
  · intro i
    have := vocabulary_index_range S EvalOrder.size_first TrainRecord.cuisine
      TrainRecord.ingredients root i
    simpa [EvalOrder.first_index, parse_data_ingredients_map] using this
  · intro a b i j ha hb hij
    exact vocabulary_order S _ TrainRecord.cuisine TrainRecord.ingredients root ha hb hij
  · have hlen := pasta_corpus_vocabulary_length S EvalOrder.size_first
    obtain ⟨a, ha⟩ := (vocabulary_index_range S EvalOrder.size_first TrainRecord.cuisine
      TrainRecord.ingredients pasta_corpus 0).2
        ⟨Nat.zero_le _, by
          have h5 := hlen
          unfold parse_data_ingredients_map at h5
          rw [h5]
          simp [EvalOrder.first_index]⟩
    obtain ⟨p, hp⟩ := vocabulary_complete S EvalOrder.size_first TrainRecord.cuisine
      TrainRecord.ingredients pasta_corpus (by rw [pasta_corpus_distinct]; omega)
      (k := "pasta") (by decide)
    have h2 : occurrences TrainRecord.ingredients pasta_corpus "pasta" ≤
        occurrences TrainRecord.ingredients pasta_corpus a := by
      by_cases hp0 : p = 0
      · subst hp0
        rw [vocabulary_injective S _ TrainRecord.cuisine TrainRecord.ingredients pasta_corpus
          ha hp]
      · exact vocabulary_order S _ TrainRecord.cuisine TrainRecord.ingredients pasta_corpus
          ha hp (by omega)
    have hp2 : occurrences TrainRecord.ingredients pasta_corpus "pasta" = 2 := by decide
    rw [hp2] at h2
    rw [← pasta_corpus_frequent h2]
    exact ha

/-! ## The claims -/

/-- C1: the code evaluated on the scenario of the claim.  The vocabulary that `parse_data`
builds from the pasta corpus has 5 entries and none for `unknown_item`, so the claim
asks for the zero vector of length 5 for the test record `t1`.  `get_test_data` numbers
the ingredients of the test corpus itself, and leaves a vector of length 1: `[1]` when
the size is read first, `[0]` when the key is inserted first. -/
theorem get_test_data_unknown_item (S : StdSort) (order : EvalOrder) :
    (parse_data_ingredients_map S order pasta_corpus).length = 5 ∧
      map_find (parse_data_ingredients_map S order pasta_corpus) "unknown_item" = none ∧
      get_test_data S EvalOrder.size_first (some unknown_item_corpus) = ([[1]], ["t1"]) ∧
      get_test_data S EvalOrder.subscript_first (some unknown_item_corpus) =
        ([[0]], ["t1"]) := by
  have hmap : ∀ o : EvalOrder, get_test_data_ingredients_map S o unknown_item_corpus =
      [("unknown_item", o.first_index)] := by
    intro o
    have hf : (first_loop TestRecord.id TestRecord.ingredients unknown_item_corpus).1 =
        [("unknown_item", 1)] := by decide
    unfold get_test_data_ingredients_map make_ingredients_map resized_mapcopy
    simp only
    rw [hf, sort_singleton]
    cases o <;> decide
  refine ⟨pasta_corpus_vocabulary_length S order, ?_, ?_, ?_⟩
  · cases h : map_find (parse_data_ingredients_map S order pasta_corpus) "unknown_item" with
    | none => rfl
    | some i =>
      obtain ⟨_, -, -, this⟩ :=
        vocabulary_entry S order TrainRecord.cuisine TrainRecord.ingredients pasta_corpus h
      exact absurd this (by decide)
  · rw [get_test_data_some, hmap]
    decide
  · rw [get_test_data_some, hmap]
    decide

/-- C2: the code evaluated where the claim fails.  When line 291 inserts the key before
it reads the size, the ingredients are numbered from 1, so the last one kept receives
the number of rows of the sample vectors.  For every corpus with an ingredient some
record lists that ingredient, and encoding the record executes `sample(index) = 1` with
`index` equal to the number of rows: outside the vector, which holds no entry for that
ingredient.  In the pasta corpus this is `sample(5) = 1` on a vector of 5 rows; with
insertion sort as `std::sort` it is `tortilla` in the second record. -/
theorem parse_data_subscript_first_out_of_range (S : StdSort) (root : List TrainRecord) :
    (all_ingredients TrainRecord.ingredients root ≠ [] →
      ∃ record ∈ root, ∃ s ∈ record.ingredients,
        map_find (parse_data_ingredients_map S EvalOrder.subscript_first root) s =
          some (parse_data_ingredients_map S EvalOrder.subscript_first root).length ∧
        (encode (parse_data_ingredients_map S EvalOrder.subscript_first root)
          record.ingredients).length =
          (parse_data_ingredients_map S EvalOrder.subscript_first root).length ∧
        encode_in_range (parse_data_ingredients_map S EvalOrder.subscript_first root)
          record.ingredients = false) ∧
    (∃ record ∈ pasta_corpus, ∃ s ∈ record.ingredients,
      map_find (parse_data_ingredients_map S EvalOrder.subscript_first pasta_corpus) s =
        some 5 ∧
      (encode (parse_data_ingredients_map S EvalOrder.subscript_first pasta_corpus)
        record.ingredients).length = 5 ∧
      encode_in_range (parse_data_ingredients_map S EvalOrder.subscript_first pasta_corpus)
        record.ingredients = false) ∧
    parse_data_ingredients_map insertion_sort EvalOrder.subscript_first pasta_corpus =
      [("basil", 2), ("beans", 3), ("pasta", 1), ("tomato", 4), ("tortilla", 5)] ∧
    parse_data insertion_sort EvalOrder.subscript_first (some pasta_corpus) =
      ([[0, 1, 0, 0, 1], [0, 0, 0, 1, 0], [0, 1, 1, 0, 0]],
        ["italian", "mexican", "italian"]) := by
  have hgen : ∀ c : List TrainRecord, all_ingredients TrainRecord.ingredients c ≠ [] →
      ∃ record ∈ c, ∃ s ∈ record.ingredients,
        map_find (parse_data_ingredients_map S EvalOrder.subscript_first c) s =
          some (parse_data_ingredients_map S EvalOrder.subscript_first c).length ∧
        (encode (parse_data_ingredients_map S EvalOrder.subscript_first c)
          record.ingredients).length =
          (parse_data_ingredients_map S EvalOrder.subscript_first c).length ∧
        encode_in_range (parse_data_ingredients_map S EvalOrder.subscript_first c)
          record.ingredients = false := by
    intro c hne
    have hD : 0 < (all_ingredients TrainRecord.ingredients c).dedup.length := by
      obtain ⟨x, hx⟩ := List.exists_mem_of_ne_nil _ hne
      exact List.length_pos_of_mem (List.mem_dedup.2 hx)
    have hlen : 0 < (parse_data_ingredients_map S EvalOrder.subscript_first c).length := by
      unfold parse_data_ingredients_map
      rw [vocabulary_length]
      omega
    obtain ⟨k, hk⟩ := (vocabulary_index_range S EvalOrder.subscript_first TrainRecord.cuisine
      TrainRecord.ingredients c
      (parse_data_ingredients_map S EvalOrder.subscript_first c).length).2
        ⟨by simp only [EvalOrder.first_index]; exact hlen,
          by simp [parse_data_ingredients_map, EvalOrder.first_index]⟩
    obtain ⟨_, -, -, hocc⟩ :=
      vocabulary_entry S _ TrainRecord.cuisine TrainRecord.ingredients c hk
    obtain ⟨record, hrec, hmem⟩ := exists_record_of_occurrences _ _ hocc
    exact ⟨record, hrec, k, hmem, hk, encode_length _ _,
      encode_in_range_eq_false hmem hk le_rfl⟩
  refine ⟨hgen root, ?_, by decide, by decide⟩
  have h5 := pasta_corpus_vocabulary_length S EvalOrder.subscript_first
  have := hgen pasta_corpus (by decide)
  rw [h5] at this
  exact this

/-- C3: the vocabulary of `parse_data` has `min D 2000` entries, where `D` is the number
of distinct ingredient strings of the corpus: never more than 2000, exactly 2000 when
`D ≥ 2000` and only then, `D` when `D < 2000`, none for the empty corpus, and 5 for the
pasta corpus.  This holds for either order of evaluation of line 291. -/
theorem parse_data_vocabulary_size (S : StdSort) (order : EvalOrder)
    (root : List TrainRecord) :
    (parse_data_ingredients_map S order root).length =
      min (all_ingredients TrainRecord.ingredients root).dedup.length 2000 ∧
    (parse_data_ingredients_map S order root).length ≤ 2000 ∧
    ((parse_data_ingredients_map S order root).length = 2000 ↔
      2000 ≤ (all_ingredients TrainRecord.ingredients root).dedup.length) ∧
    ((all_ingredients TrainRecord.ingredients root).dedup.length < 2000 →
      (parse_data_ingredients_map S order root).length =
        (all_ingredients TrainRecord.ingredients root).dedup.length) ∧
    (parse_data_ingredients_map S order []).length = 0 ∧
    (parse_data_ingredients_map S order pasta_corpus).length = 5 := by
  have h : ∀ c : List TrainRecord, (parse_data_ingredients_map S order c).length =
      min (all_ingredients TrainRecord.ingredients c).dedup.length 2000 := by
    intro c
    unfold parse_data_ingredients_map
    rw [vocabulary_length]
  refine ⟨h root, ?_, ?_, ?_, ?_, ?_⟩
  · rw [h]; omega
  · rw [h]; omega
  · intro hlt; rw [h]; omega
  · rw [h]; rfl
  · rw [h, pasta_corpus_distinct]; rfl

/-- C4: the code evaluated where the claim fails.  When line 291 inserts the key before
it reads the size, the indices in use are exactly `1, ..., K` for a vocabulary of `K`
entries: no ingredient has index 0 and one has index `K`.  In the pasta corpus `pasta`
has index 1, not 0, and some ingredient has index 5. -/
theorem parse_data_subscript_first_indices (S : StdSort) (root : List TrainRecord) :
    (∀ i, (∃ k, map_find (parse_data_ingredients_map S EvalOrder.subscript_first root) k =
        some i) ↔
      1 ≤ i ∧ i ≤ (parse_data_ingredients_map S EvalOrder.subscript_first root).length) ∧
    (∀ k, map_find (parse_data_ingredients_map S EvalOrder.subscript_first root) k ≠
      some 0) ∧
    (parse_data_ingredients_map S EvalOrder.subscript_first pasta_corpus).length = 5 ∧
    map_find (parse_data_ingredients_map S EvalOrder.subscript_first pasta_corpus) "pasta" =
      some 1 ∧
    (∃ k, map_find (parse_data_ingredients_map S EvalOrder.subscript_first pasta_corpus) k =
      some 5) ∧
    parse_data_ingredients_map insertion_sort EvalOrder.subscript_first pasta_corpus =
      [("basil", 2), ("beans", 3), ("pasta", 1), ("tomato", 4), ("tortilla", 5)] := by
  have hrange : ∀ (c : List TrainRecord) (i : Nat),
      (∃ k, map_find (parse_data_ingredients_map S EvalOrder.subscript_first c) k = some i) ↔
      1 ≤ i ∧ i ≤ (parse_data_ingredients_map S EvalOrder.subscript_first c).length := by
    intro c i
    have := vocabulary_index_range S EvalOrder.subscript_first TrainRecord.cuisine
      TrainRecord.ingredients c i
    simp only [EvalOrder.first_index, Nat.lt_succ_iff] at this
    exact this
  have h5 := pasta_corpus_vocabulary_length S EvalOrder.subscript_first
  refine ⟨hrange root, ?_, h5, ?_, ?_, by decide⟩
  · intro k hk
    have := ((hrange root 0).1 ⟨k, hk⟩).1
    omega
  · obtain ⟨a, ha⟩ := (hrange pasta_corpus 1).2 ⟨le_rfl, by rw [h5]; omega⟩
    obtain ⟨p, hp⟩ := vocabulary_complete S EvalOrder.subscript_first TrainRecord.cuisine
      TrainRecord.ingredients pasta_corpus (by rw [pasta_corpus_distinct]; omega)
      (k := "pasta") (by decide)
    have hp1 : 1 ≤ p := ((hrange pasta_corpus p).1 ⟨_, hp⟩).1
    have h2 : occurrences TrainRecord.ingredients pasta_corpus "pasta" ≤
        occurrences TrainRecord.ingredients pasta_corpus a := by
      by_cases hp0 : p = 1
      · subst hp0
        rw [vocabulary_injective S _ TrainRecord.cuisine TrainRecord.ingredients pasta_corpus
          ha hp]
      · exact vocabulary_order S _ TrainRecord.cuisine TrainRecord.ingredients pasta_corpus
          ha hp (by omega)
    have hp2 : occurrences TrainRecord.ingredients pasta_corpus "pasta" = 2 := by decide
    rw [hp2] at h2
    rw [← pasta_corpus_frequent h2]
    exact ha
  · exact (hrange pasta_corpus 5).2 ⟨by omega, by rw [h5]⟩

/-- C5: every ingredient in the vocabulary of `parse_data` occurs in the corpus, and it
occurs at least as often as every ingredient of the corpus that has no index.  This
holds for either order of evaluation of line 291. -/
theorem parse_data_vocabulary_most_frequent (S : StdSort) (order : EvalOrder)
    (root : List TrainRecord) :
    ∀ a i, map_find (parse_data_ingredients_map S order root) a = some i →
      a ∈ all_ingredients TrainRecord.ingredients root ∧
      0 < occurrences TrainRecord.ingredients root a ∧
      ∀ b, b ∈ all_ingredients TrainRecord.ingredients root →
        map_find (parse_data_ingredients_map S order root) b = none →
        occurrences TrainRecord.ingredients root b ≤
          occurrences TrainRecord.ingredients root a := by
  intro a i ha
  obtain ⟨_, -, -, hpos⟩ :=
    vocabulary_entry S order TrainRecord.cuisine TrainRecord.ingredients root ha
  refine ⟨?_, hpos, ?_⟩
  · exact List.count_pos_iff.1 hpos
  · intro b hb hnone
    exact vocabulary_cut S order TrainRecord.cuisine TrainRecord.ingredients root ha hnone
      (List.count_pos_iff.2 hb)

/-- Witness for C5: `pasta` in the pasta corpus, where nothing is left out. -/
theorem parse_data_vocabulary_most_frequent_witness :
    map_find (parse_data_ingredients_map insertion_sort EvalOrder.size_first pasta_corpus)
        "pasta" = some 0 ∧
      "pasta" ∈ all_ingredients TrainRecord.ingredients pasta_corpus ∧
      0 < occurrences TrainRecord.ingredients pasta_corpus "pasta" :=
  have h : map_find (parse_data_ingredients_map insertion_sort EvalOrder.size_first
      pasta_corpus) "pasta" = some 0 := by
    decide
  ⟨h, (parse_data_vocabulary_most_frequent insertion_sort EvalOrder.size_first pasta_corpus
      "pasta" 0 h).1,
    (parse_data_vocabulary_most_frequent insertion_sort EvalOrder.size_first pasta_corpus
      "pasta" 0 h).2.1⟩

/-- C6: for one map, two ingredient lists with the same set of elements are encoded to
the same vector, whose length is the size of the map. -/
theorem encode_set_invariant (ingredients_map : StdMap) (l1 l2 : List String)
    (h : ∀ s, s ∈ l1 ↔ s ∈ l2) :
    encode ingredients_map l1 = encode ingredients_map l2 ∧
      (encode ingredients_map l1).length = ingredients_map.length ∧
      (encode ingredients_map l2).length = ingredients_map.length := by
  refine ⟨?_, encode_length _ _, encode_length _ _⟩
  apply List.ext_getElem?
  intro i
  rw [encode_getElem?, encode_getElem?]
  have : (∃ s ∈ l1, map_find ingredients_map s = some i) ↔
      (∃ s ∈ l2, map_find ingredients_map s = some i) := by
    constructor
    · rintro ⟨s, hs, hsi⟩; exact ⟨s, (h s).1 hs, hsi⟩
    · rintro ⟨s, hs, hsi⟩; exact ⟨s, (h s).2 hs, hsi⟩
  simp only [this]

/-- Witness for C6: a reordered list with a repeated ingredient. -/
theorem encode_set_invariant_witness :
    (∀ s, s ∈ ["pasta", "tomato"] ↔ s ∈ ["tomato", "pasta", "pasta"]) ∧
      encode [("basil", 1), ("pasta", 0), ("tomato", 2)] ["pasta", "tomato"] = [1, 0, 1] ∧
      encode [("basil", 1), ("pasta", 0), ("tomato", 2)] ["tomato", "pasta", "pasta"] =
        [1, 0, 1] :=
  have hset : ∀ s, s ∈ ["pasta", "tomato"] ↔ s ∈ ["tomato", "pasta", "pasta"] := by
    intro s
    simp only [List.mem_cons, List.mem_singleton, List.not_mem_nil, or_false]
    tauto
  ⟨hset, by decide,
    (encode_set_invariant [("basil", 1), ("pasta", 0), ("tomato", 2)] _ _ hset).1 ▸ by decide⟩

/-- C8: when `train.json` is unreadable, holds no record, or holds only records of one
cuisine, the training step fails with the configuration error and `main` ends in its
`catch` block: no decision function is applied, saved or used for the export. -/
theorem main_training_failure (S : StdSort) (order : EvalOrder)
    (fit : List sample_type → List String → decision_function)
    (reload : decision_function → Except String decision_function)
    (train_json : Option (List TrainRecord)) (test_json : Option (List TestRecord))
    (h : train_json = none ∨ train_json = some [] ∨
      ∃ root c, train_json = some root ∧ ∀ r ∈ root, r.cuisine = c) :
    train fit (parse_data S order train_json).1 (parse_data S order train_json).2 =
        Except.error "ConfigurationError" ∧
      main S order (train fit) reload train_json test_json =
        MainOutcome.exception_thrown "ConfigurationError" := by
  have htrain : train fit (parse_data S order train_json).1
      (parse_data S order train_json).2 = Except.error "ConfigurationError" := by
    unfold train
    rcases h with h | h | ⟨root, c, h, hc⟩
    · subst h; simp [parse_data]
    · subst h; simp [parse_data_some]
    · subst h
      rw [if_pos]
      right
      rw [parse_data_some]
      apply dedup_length_of_constant _ c
      intro x hx
      obtain ⟨r, hr, rfl⟩ := List.mem_map.1 hx
      exact hc r hr
  refine ⟨htrain, ?_⟩
  unfold main
  simp only [htrain]

/-- Witness for C8: a corpus of two italian recipes. -/
theorem main_training_failure_witness :
    main insertion_sort EvalOrder.size_first (train (fun _ _ _ => "italian")) Except.ok
        (some [⟨"italian", ["pasta", "tomato"]⟩, ⟨"italian", ["pasta", "basil"]⟩])
        (some unknown_item_corpus) =
      MainOutcome.exception_thrown "ConfigurationError" :=
  (main_training_failure insertion_sort EvalOrder.size_first (fun _ _ _ => "italian")
    Except.ok
    (some [⟨"italian", ["pasta", "tomato"]⟩, ⟨"italian", ["pasta", "basil"]⟩])
    (some unknown_item_corpus)
    (Or.inr (Or.inr ⟨_, "italian", rfl, by decide⟩))).2

/-- C9: reordering the training records changes neither the count of any ingredient,
nor `frequency_map`, nor the vocabulary.  This holds for either order of evaluation of
line 291. -/
theorem parse_data_vocabulary_order_independent (S : StdSort) (order : EvalOrder)
    (root1 root2 : List TrainRecord) (h : root1.Perm root2) :
    (∀ s, occurrences TrainRecord.ingredients root1 s =
      occurrences TrainRecord.ingredients root2 s) ∧
    (first_loop TrainRecord.cuisine TrainRecord.ingredients root1).1 =
      (first_loop TrainRecord.cuisine TrainRecord.ingredients root2).1 ∧
    parse_data_ingredients_map S order root1 = parse_data_ingredients_map S order root2 := by
  have hocc : ∀ s, occurrences TrainRecord.ingredients root1 s =
      occurrences TrainRecord.ingredients root2 s := by
    intro s
    unfold occurrences all_ingredients
    exact ((h.map TrainRecord.ingredients).flatten).count_eq s
  have hfreq : (first_loop TrainRecord.cuisine TrainRecord.ingredients root1).1 =
      (first_loop TrainRecord.cuisine TrainRecord.ingredients root2).1 := by
    apply map_ext (first_loop_ascending _ _ _) (first_loop_ascending _ _ _)
    intro k
    rw [map_find_first_loop, map_find_first_loop, hocc]
  refine ⟨hocc, hfreq, ?_⟩
  unfold parse_data_ingredients_map
  rw [hfreq]

/-- Witness for C9: the pasta corpus and the same records in reverse order. -/
theorem parse_data_vocabulary_order_independent_witness :
    pasta_corpus.Perm pasta_corpus.reverse ∧
      parse_data_ingredients_map insertion_sort EvalOrder.size_first pasta_corpus =
        parse_data_ingredients_map insertion_sort EvalOrder.size_first
          pasta_corpus.reverse :=
  ⟨(List.reverse_perm pasta_corpus).symm,
    (parse_data_vocabulary_order_independent insertion_sort EvalOrder.size_first
      pasta_corpus pasta_corpus.reverse (List.reverse_perm pasta_corpus).symm).2.2⟩

/-- C10: the subscripts `samples[0]`, `samples[90]`, `labels[0]` and `labels[90]` of
`main` are all below the sizes of the vectors `parse_data` filled exactly when
`train.json` was parsed and holds at least 91 records; with fewer records, or after a
parse failure, a subscript is out of range. -/
theorem fixed_lookups_in_bounds (S : StdSort) (order : EvalOrder) (df : decision_function)
    (train_json : Option (List TrainRecord)) :
    ((0 < (parse_data S order train_json).1.length ∧
        90 < (parse_data S order train_json).1.length ∧
        0 < (parse_data S order train_json).2.length ∧
        90 < (parse_data S order train_json).2.length) ↔
      ∃ root, train_json = some root ∧ 91 ≤ root.length) ∧
    ((fixed_lookups df (parse_data S order train_json).1
        (parse_data S order train_json).2).isSome = true ↔
      ∃ root, train_json = some root ∧ 91 ≤ root.length) ∧
    ((¬ ∃ root, train_json = some root ∧ 91 ≤ root.length) →
      fixed_lookups df (parse_data S order train_json).1
        (parse_data S order train_json).2 = none) ∧
    fixed_lookups df (parse_data S order none).1 (parse_data S order none).2 = none := by
  have hlen : (90 < (parse_data S order train_json).1.length ∧
      90 < (parse_data S order train_json).2.length) ↔
      ∃ root, train_json = some root ∧ 91 ≤ root.length := by
    cases train_json with
    | none => simp [parse_data]
    | some root =>
      simp only [parse_data_some, List.length_map, Option.some.injEq, exists_eq_left']
      omega
  refine ⟨?_, ?_, ?_, ?_⟩
  · rw [← hlen]
    omega
  · rw [fixed_lookups_isSome, hlen]
  · intro hn
    rw [← hlen, ← fixed_lookups_isSome df] at hn
    simpa using hn
  · simp [parse_data, fixed_lookups]

end WhatsCookingSvm
